import Mathlib

/-!
Verification development for the contract-compliance assistant repository
(RAG pipeline, amendment applier, risk heuristic, PDF text extraction).

The Python source is shallowly embedded over `List Char`:
strings are lists of characters, Python `str.replace` / slicing / negative
indexing are modelled by executable functions below, and the fallible JSON
parsing of the amendment extractor is modelled by a fuel-based recursive
descent parser returning `Option`.
-/

namespace Regula

/-- Characters that are awkward to write literally; by code point. -/
def quoteChar : Char := Char.ofNat 34

def backslashChar : Char := Char.ofNat 92

def lbraceChar : Char := Char.ofNat 123

def rbraceChar : Char := Char.ofNat 125

def nlChar : Char := Char.ofNat 10

/-- `occursIn s pat` is true iff `pat` occurs as a contiguous substring of `s`
(the semantics of Python's `pat in s`). -/
def occursIn (s pat : List Char) : Bool :=
  match s with
  | [] => pat.isPrefixOf []
  | c :: rest => pat.isPrefixOf (c :: rest) || occursIn rest pat

/-- Structural worker for `pyReplace`; the fuel bounds the length of the
scanned string (the match skips at least one character per step, so
`s.length` fuel always suffices and the zero-fuel arm is unreachable). -/
def pyReplaceF : Nat → List Char → List Char → List Char → List Char
  | _, [], pat, rep => if pat = [] then rep else []
  | 0, _ :: _, _, _ => []
  | fuel + 1, c :: rest, pat, rep =>
    if pat = [] then rep ++ c :: pyReplaceF fuel rest pat rep
    else if pat.isPrefixOf (c :: rest) then
      rep ++ pyReplaceF fuel ((c :: rest).drop pat.length) pat rep
    else c :: pyReplaceF fuel rest pat rep

/-- Model of Python `s.replace(pat, rep)`: replaces every non-overlapping
occurrence of `pat`, scanning left to right.  For an empty `pat`, Python
inserts `rep` at every gap (`"ab".replace("", "-") = "-a-b-"`); that case is
modelled too although the repository guards against it. -/
def pyReplace (s pat rep : List Char) : List Char :=
  pyReplaceF s.length s pat rep

/-- Replacement of only the first occurrence, leaving later occurrences
untouched.  This follows the specification's words ("deletes the first
occurrence", "substitutes for the first occurrence"); it is compared against
the source's `pyReplace` (replace all) semantics. -/
def pyReplaceFirst (s pat rep : List Char) : List Char :=
  match s with
  | [] => []
  | c :: rest =>
    if pat ≠ [] ∧ pat.isPrefixOf (c :: rest) then
      rep ++ (c :: rest).drop pat.length
    else c :: pyReplaceFirst rest pat rep

/-- Structural worker for `pySplit`; fuel as in `pyReplaceF`. -/
def pySplitF : Nat → List Char → List Char → List (List Char)
  | _, [], _ => [[]]
  | 0, c :: _, _ => [[c]]
  | fuel + 1, c :: rest, pat =>
    if pat ≠ [] ∧ pat.isPrefixOf (c :: rest) then
      [] :: pySplitF fuel ((c :: rest).drop pat.length) pat
    else
      match pySplitF fuel rest pat with
      | [] => [[c]]
      | g :: gs => (c :: g) :: gs

/-- Model of Python `s.split(pat)` for a non-empty separator `pat`:
the maximal pieces of `s` between non-overlapping occurrences of `pat`,
scanned left to right.  (For `pat = []` Python raises; the value returned
here for that case is never used.) -/
def pySplit (s pat : List Char) : List (List Char) :=
  pySplitF s.length s pat

/-- `joinWith sep parts` concatenates `parts` with `sep` between consecutive
parts (the semantics of Python's `sep.join(parts)`). -/
def joinWith (sep : List Char) : List (List Char) → List Char
  | [] => []
  | [g] => g
  | g :: gs => g ++ sep ++ joinWith sep gs

/-! ## Amendment application (regulatory_update_tracker.py, apply_amendments) -/

/-- An amendment record as produced by `generate_amendments` and consumed by
`apply_amendments`: `a.get("clause_id")`, `a.get("old_clause","")`,
`a.get("new_clause","")`, `a.get("action","replace")`. -/
structure Amendment where
  clause_id : List Char
  old_clause : List Char
  new_clause : List Char
  action : List Char
deriving DecidableEq

/-- The opening insertion marker written by `apply_amendments`. -/
def hlOpen : List Char := "<<HIGHLIGHT>>".toList

/-- The closing insertion marker written by `apply_amendments`. -/
def hlClose : List Char := "<</HIGHLIGHT>>".toList

/-- The `"remove"` action string. -/
def actRemove : List Char := "remove".toList

/-- One iteration of the `for a in amendments` loop of `apply_amendments`. -/
def applyOne (text : List Char) (a : Amendment) : List Char :=
  if a.old_clause = [] then text
  else if a.action = actRemove then pyReplace text a.old_clause []
  else pyReplace text a.old_clause (hlOpen ++ a.new_clause ++ hlClose)

/-- `apply_amendments` from regulatory_update_tracker.py: folds the amendment
list in order over the working text using Python `str.replace`. -/
def apply_amendments (text : List Char) (amendments : List Amendment) : List Char :=
  amendments.foldl applyOne text

/-- One loop iteration following the specification's words instead of the
source: only the first occurrence of `old_clause` is replaced. -/
def applyOneFirst (text : List Char) (a : Amendment) : List Char :=
  if a.old_clause = [] then text
  else if a.action = actRemove then pyReplaceFirst text a.old_clause []
  else pyReplaceFirst text a.old_clause (hlOpen ++ a.new_clause ++ hlClose)

/-- Amendment application as the specification describes it (first occurrence
only); compared against the source's `apply_amendments`. -/
def apply_amendments_spec (text : List Char) (amendments : List Amendment) : List Char :=
  amendments.foldl applyOneFirst text

/-- Wrapping of an inserted clause in markers, as `apply_amendments` does. -/
def wrapHighlight (s : List Char) : List Char := hlOpen ++ s ++ hlClose

/-- The marker-stripping transform of `save_pdf`
(`seg.replace("<<HIGHLIGHT>>", "").replace("<</HIGHLIGHT>>", "")`). -/
def stripHighlight (t : List Char) : List Char :=
  pyReplace (pyReplace t hlOpen []) hlClose []

/-! ## Chunking (main.py, chunk_text) -/

/-- Model of Python slicing `s[a:b]`: negative bounds count from the end and
both bounds are clamped to the string. -/
def pySlice (s : List Char) (a b : Int) : List Char :=
  let n : Int := s.length
  let a2 := if a < 0 then max (n + a) 0 else min a n
  let b2 := if b < 0 then max (n + b) 0 else min b n
  (s.take b2.toNat).drop a2.toNat

/-- The `while i < len(text)` loop of `chunk_text` in main.py, made total with
explicit fuel: `none` means the given fuel was exhausted before the loop
finished (in particular the loop has not terminated within `fuel` iterations).
Each iteration appends `text[i : i + cs]` and advances `i` by `cs - co`. -/
def chunkLoopF (cs co : Int) (text : List Char) : Int → Nat → Option (List (List Char))
  | _, 0 => none
  | i, fuel + 1 =>
    if i < (text.length : Int) then
      match chunkLoopF cs co text (i + (cs - co)) fuel with
      | some rest => some (pySlice text i (i + cs) :: rest)
      | none => none
    else some []

/-- `CHUNK_SIZE` from main.py. -/
def CHUNK_SIZE : Int := 1000

/-- `CHUNK_OVERLAP` from main.py. -/
def CHUNK_OVERLAP : Int := 200

/-- `chunk_text` from main.py (with the module constants
`CHUNK_SIZE = 1000`, `CHUNK_OVERLAP = 200`), supplied with fuel. -/
def chunk_text (text : List Char) (fuel : Nat) : Option (List (List Char)) :=
  chunkLoopF CHUNK_SIZE CHUNK_OVERLAP text 0 fuel

/-! ## Risk heuristic (stream.py, calculate_risk) -/

def patTermination : List Char := "termination".toList

def patLiability : List Char := "liability".toList

def patIndemn : List Char := "indemn".toList

def patGdpr : List Char := "gdpr".toList

def patPersonalData : List Char := "personal data".toList

def patDataProtection : List Char := "data protection".toList

def patPrivacy : List Char := "privacy".toList

def rTermination : List Char := "Termination clause may cause contract imbalance.".toList

def rLiability : List Char := "Liability clause requires review.".toList

def rIndemn : List Char := "Indemnification clause contains high-risk terms.".toList

def rGdpr : List Char := "Missing explicit GDPR/compliance section.".toList

/-- `calculate_risk` from stream.py: case-insensitive keyword rules, additive
score, reasons appended in rule order. -/
def calculate_risk (text : List Char) : Nat × List (List Char) :=
  let low := text.map Char.toLower
  let s1 := if occursIn low patTermination then (20, [rTermination]) else (0, [])
  let s2 := if occursIn low patLiability then (s1.1 + 25, s1.2 ++ [rLiability]) else s1
  let s3 := if occursIn low patIndemn then (s2.1 + 20, s2.2 ++ [rIndemn]) else s2
  if !occursIn low patGdpr &&
      (occursIn low patPersonalData || occursIn low patDataProtection ||
        occursIn low patPrivacy) then
    (s3.1 + 15, s3.2 ++ [rGdpr])
  else s3

/-! ## JSON extraction (regulatory_update_tracker.py, extract_json)

`json.loads` is modelled by a fuel-based recursive descent parser over
`List Char`.  Number tokens are kept as their lexemes (the repository never
computes with parsed numbers); `\uXXXX` escapes are decoded by code point.
-/

/-- Parsed JSON values. -/
inductive JValue where
  | jnull : JValue
  | jbool : Bool → JValue
  | jnum : List Char → JValue
  | jstr : List Char → JValue
  | jarr : List JValue → JValue
  | jobj : List (List Char × JValue) → JValue

/-- JSON insignificant whitespace (space, tab, newline, carriage return). -/
def isJsonWs (c : Char) : Bool :=
  c == ' ' || c == Char.ofNat 9 || c == nlChar || c == Char.ofNat 13

def skipWs (s : List Char) : List Char := s.dropWhile isJsonWs

def isHexDigit (c : Char) : Bool :=
  c.isDigit || (('a' ≤ c) && (c ≤ 'f')) || (('A' ≤ c) && (c ≤ 'F'))

def hexVal (c : Char) : Nat :=
  if c.isDigit then c.toNat - 48
  else if ('a' ≤ c) && (c ≤ 'f') then c.toNat - 87
  else c.toNat - 55

/-- Body of a JSON string literal, after the opening quote: returns the decoded
characters and the input remaining after the closing quote.  Raw control
characters are rejected, as by Python's strict `json.loads`. -/
def parseStringBody : Nat → List Char → Option (List Char × List Char)
  | 0, _ => none
  | _, [] => none
  | fuel + 1, c :: rest =>
    if c == quoteChar then some ([], rest)
    else if c == backslashChar then
      match rest with
      | [] => none
      | e :: rest2 =>
        let dec : Option (Char × List Char) :=
          if e == quoteChar then some (quoteChar, rest2)
          else if e == backslashChar then some (backslashChar, rest2)
          else if e == '/' then some ('/', rest2)
          else if e == 'b' then some (Char.ofNat 8, rest2)
          else if e == 'f' then some (Char.ofNat 12, rest2)
          else if e == 'n' then some (nlChar, rest2)
          else if e == 'r' then some (Char.ofNat 13, rest2)
          else if e == 't' then some (Char.ofNat 9, rest2)
          else if e == 'u' then
            match rest2 with
            | h1 :: h2 :: h3 :: h4 :: rest3 =>
              if isHexDigit h1 && isHexDigit h2 && isHexDigit h3 && isHexDigit h4 then
                some (Char.ofNat
                  (hexVal h1 * 4096 + hexVal h2 * 256 + hexVal h3 * 16 + hexVal h4), rest3)
              else none
            | _ => none
          else none
        match dec with
        | some (ch, r) =>
          match parseStringBody fuel r with
          | some (cs, r2) => some (ch :: cs, r2)
          | none => none
        | none => none
    else if c.toNat < 32 then none
    else
      match parseStringBody fuel rest with
      | some (cs, r2) => some (c :: cs, r2)
      | none => none

def litTrue : List Char := "true".toList

def litFalse : List Char := "false".toList

def litNull : List Char := "null".toList

def litNaN : List Char := "NaN".toList

def litInf : List Char := "Infinity".toList

def litNegInf : List Char := "-Infinity".toList

/-- JSON number token (sign, integer part without leading zeros, optional
fraction and exponent); returns the lexeme and the remaining input. -/
def parseNumber (s : List Char) : Option (List Char × List Char) :=
  let signAndRest : List Char × List Char :=
    match s with
    | c :: r => if c == '-' then ([c], r) else ([], s)
    | [] => ([], s)
  let sign := signAndRest.1
  let s1 := signAndRest.2
  let intAndRest : Option (List Char × List Char) :=
    match s1 with
    | [] => none
    | c :: r =>
      if c == '0' then some ([c], r)
      else if c.isDigit then some (s1.takeWhile Char.isDigit, s1.dropWhile Char.isDigit)
      else none
  match intAndRest with
  | none => none
  | some (ip, r1) =>
    let fracAndRest : Option (List Char × List Char) :=
      match r1 with
      | c :: r2 =>
        if c == '.' then
          let ds := r2.takeWhile Char.isDigit
          if ds = [] then none else some (c :: ds, r2.dropWhile Char.isDigit)
        else some ([], r1)
      | [] => some ([], r1)
    match fracAndRest with
    | none => none
    | some (fp, r3) =>
      let expAndRest : Option (List Char × List Char) :=
        match r3 with
        | c :: r4 =>
          if c == 'e' || c == 'E' then
            let signedR4 : List Char × List Char :=
              match r4 with
              | d :: r5 => if d == '+' || d == '-' then ([d], r5) else ([], r4)
              | [] => ([], r4)
            let ds := signedR4.2.takeWhile Char.isDigit
            if ds = [] then none
            else some (c :: signedR4.1 ++ ds, signedR4.2.dropWhile Char.isDigit)
          else some ([], r3)
        | [] => some ([], r3)
      match expAndRest with
      | none => none
      | some (ep, r6) => some (sign ++ ip ++ fp ++ ep, r6)

mutual

/-- One JSON value, leading whitespace allowed; fuel bounds nesting. -/
def parseVal : Nat → List Char → Option (JValue × List Char)
  | 0, _ => none
  | fuel + 1, s =>
    let s1 := skipWs s
    match s1 with
    | [] => none
    | c :: rest =>
      if c == quoteChar then
        match parseStringBody (rest.length + 1) rest with
        | some (str, r) => some (JValue.jstr str, r)
        | none => none
      else if c == '[' then
        let s2 := skipWs rest
        match s2 with
        | [] => none
        | ch :: r2 =>
          if ch == ']' then some (JValue.jarr [], r2)
          else
            match parseVal fuel s2 with
            | some (v, r3) =>
              match parseArrTail fuel r3 with
              | some (vs, r4) => some (JValue.jarr (v :: vs), r4)
              | none => none
            | none => none
      else if c == lbraceChar then
        let s2 := skipWs rest
        match s2 with
        | [] => none
        | ch :: r2 =>
          if ch == rbraceChar then some (JValue.jobj [], r2)
          else
            match parseMember fuel s2 with
            | some (kv, r3) =>
              match parseObjTail fuel r3 with
              | some (kvs, r4) => some (JValue.jobj (kv :: kvs), r4)
              | none => none
            | none => none
      else if litTrue.isPrefixOf s1 then some (JValue.jbool true, s1.drop 4)
      else if litFalse.isPrefixOf s1 then some (JValue.jbool false, s1.drop 5)
      else if litNull.isPrefixOf s1 then some (JValue.jnull, s1.drop 4)
      else if litNaN.isPrefixOf s1 then some (JValue.jnum litNaN, s1.drop 3)
      else if litInf.isPrefixOf s1 then some (JValue.jnum litInf, s1.drop 8)
      else if litNegInf.isPrefixOf s1 then some (JValue.jnum litNegInf, s1.drop 9)
      else
        match parseNumber s1 with
        | some (lex, r) => some (JValue.jnum lex, r)
        | none => none

/-- After a value inside an array: `,` and another value, or the closing `]`. -/
def parseArrTail : Nat → List Char → Option (List JValue × List Char)
  | 0, _ => none
  | fuel + 1, s =>
    match skipWs s with
    | [] => none
    | c :: rest =>
      if c == ']' then some ([], rest)
      else if c == ',' then
        match parseVal fuel rest with
        | some (v, r2) =>
          match parseArrTail fuel r2 with
          | some (vs, r3) => some (v :: vs, r3)
          | none => none
        | none => none
      else none

/-- One `"key": value` member of an object. -/
def parseMember : Nat → List Char → Option ((List Char × JValue) × List Char)
  | 0, _ => none
  | fuel + 1, s =>
    match skipWs s with
    | [] => none
    | c :: rest =>
      if c == quoteChar then
        match parseStringBody (rest.length + 1) rest with
        | some (key, r2) =>
          match skipWs r2 with
          | [] => none
          | ch :: r3 =>
            if ch == ':' then
              match parseVal fuel r3 with
              | some (v, r4) => some ((key, v), r4)
              | none => none
            else none
        | none => none
      else none

/-- After a member inside an object: `,` and another member, or `}`. -/
def parseObjTail : Nat → List Char → Option (List (List Char × JValue) × List Char)
  | 0, _ => none
  | fuel + 1, s =>
    match skipWs s with
    | [] => none
    | c :: rest =>
      if c == rbraceChar then some ([], rest)
      else if c == ',' then
        match parseMember fuel rest with
        | some (kv, r2) =>
          match parseObjTail fuel r2 with
          | some (kvs, r3) => some (kv :: kvs, r3)
          | none => none
        | none => none
      else none

end

/-- Model of Python `json.loads`: one value with optional surrounding
whitespace; anything remaining after it is an error.  The fuel
`s.length + 1` dominates any nesting depth of `s`. -/
def json_loads (s : List Char) : Option JValue :=
  match parseVal (s.length + 1) s with
  | some (v, rest) => if skipWs rest = [] then some v else none
  | none => none

/-- Indices of the occurrences of `c` in `s`, ascending. -/
def charIdxs (c : Char) (s : List Char) : List Nat :=
  (s.enum.filter (fun p => p.2 == c)).map (fun p => p.1)

/-- The span matched by `re.search(r"\[.*\]", text, re.S)`: from the leftmost
`[` that is followed by some `]`, greedily through the last `]` of the text. -/
def regexBracketSpan (s : List Char) : Option (List Char) :=
  let opens := charIdxs '[' s
  let closes := charIdxs ']' s
  match opens.find? (fun i => closes.any (fun j => i < j)), closes.getLast? with
  | some i, some j => some ((s.drop i).take (j - i + 1))
  | _, _ => none

/-- Collect a balanced bracketed span, given the depth already opened. -/
def balancedFrom : Nat → List Char → Option (List Char)
  | _, [] => none
  | depth, c :: rest =>
    if c == '[' then (balancedFrom (depth + 1) rest).map (fun t => c :: t)
    else if c == ']' then
      if depth = 1 then some [c]
      else (balancedFrom (depth - 1) rest).map (fun t => c :: t)
    else (balancedFrom depth rest).map (fun t => c :: t)

/-- The first balanced `[...]` substring of `s`, as the specification's words
describe the fallback; compared against the source's greedy `regexBracketSpan`. -/
def firstBalancedSpan : List Char → Option (List Char)
  | [] => none
  | c :: rest =>
    if c == '[' then (balancedFrom 1 rest).map (fun t => c :: t)
    else firstBalancedSpan rest

/-- `extract_json` from regulatory_update_tracker.py: strict parse first, then
parse of the greedy `[...]` regex span, else an empty list. -/
def extract_json (text : List Char) : JValue :=
  match json_loads text with
  | some v => v
  | none =>
    match regexBracketSpan text with
    | some m =>
      match json_loads m with
      | some v => v
      | none => JValue.jarr []
    | none => JValue.jarr []

/-- `extract_json` as the specification describes the fallback (first balanced
bracketed substring); compared against the source's `extract_json`. -/
def extract_json_spec (text : List Char) : JValue :=
  match json_loads text with
  | some v => v
  | none =>
    match firstBalancedSpan text with
    | some m =>
      match json_loads m with
      | some v => v
      | none => JValue.jarr []
    | none => JValue.jarr []

/-! ## Retrieval (main.py ask_rag / regulaai_rag.py ask)

The vector index is the external faiss `IndexFlatL2`; its exact-search
semantics are modelled here: for a query it returns the `k` stored ids of
smallest squared Euclidean distance (ties by insertion id), and when `k`
exceeds the number of stored vectors the remaining result slots hold the
sentinel id `-1`.  Embeddings are modelled with integer coordinates since
only distance comparisons matter to the claims. -/

/-- Squared Euclidean distance of two vectors. -/
def sqDist (u v : List Int) : Int :=
  (List.zipWith (fun a b => (a - b) * (a - b)) u v).foldl (fun x y => x + y) 0

/-- Is `(dist, id)` strictly before `(dist, id)` in faiss result order? -/
def distIdLt (a b : Int × Nat) : Bool :=
  a.1 < b.1 || (a.1 == b.1 && a.2 < b.2)

def insertSorted (x : Int × Nat) : List (Int × Nat) → List (Int × Nat)
  | [] => [x]
  | y :: ys => if distIdLt x y then x :: y :: ys else y :: insertSorted x ys

def sortPairs (xs : List (Int × Nat)) : List (Int × Nat) := xs.foldr insertSorted []

/-- Model of `index.search(q, k)` for a single query on a flat L2 index:
the ids of the `k` nearest stored vectors, padded with `-1` when `k` exceeds
the number of stored vectors. -/
def faissSearch (db : List (List Int)) (q : List Int) (k : Nat) : List Int :=
  let scored := (db.map (sqDist q)).enum.map (fun p => (p.2, p.1))
  let sorted := sortPairs scored
  ((sorted.take k).map (fun p => (p.2 : Int))) ++ List.replicate (k - db.length) (-1)

/-- Model of Python list indexing `xs[i]`: negative indices count from the
end; out-of-range indexing is an error (`none`). -/
def pyGet (xs : List (List Char)) (i : Int) : Option (List Char) :=
  let j : Int := if i < 0 then (xs.length : Int) + i else i
  if 0 ≤ j then xs.get? j.toNat else none

/-- The `for i in ids[0]: context += chunks[i]` loop of `ask_rag` / `ask`:
the chunk read for each returned id. -/
def retrievedChunks (chunks : List (List Char)) (ids : List Int) : List (Option (List Char)) :=
  ids.map (pyGet chunks)

/-- `TOP_K` from main.py and regulaai_rag.py. -/
def TOP_K : Nat := 4

/-! ## PDF text extraction (stream.py, extract_text_from_pdf) -/

/-- The page loop of `extract_text_from_pdf`: each page either yields text
(`some content`, possibly empty) or raises during extraction (`none`).  The
loop breaks once the accumulated text exceeds `limit`; pages with no content
are skipped. -/
def extractLoop (limit : Nat) : List (Option (List Char)) → List Char → List Char
  | [], acc => acc
  | p :: ps, acc =>
    if limit < acc.length then acc
    else
      match p with
      | some content =>
        if content = [] then extractLoop limit ps acc
        else extractLoop limit ps (acc ++ content ++ [nlChar])
      | none => extractLoop limit ps acc

/-- `extract_text_from_pdf` from stream.py on a readable, decryptable PDF:
the page texts are concatenated with newlines up to the limit and the result
is truncated to `limit` characters (`return text[:limit_chars]`). -/
def extract_text_from_pdf (pages : List (Option (List Char))) (limit : Nat) : List Char :=
  (extractLoop limit pages []).take limit

/-- `limit_chars` default of `extract_text_from_pdf`. -/
def LIMIT_CHARS : Nat := 16000

/-! ## Concrete inputs used by the test vectors below -/

/-- The amendment-fallback test input from the specification:
`"Here are changes: [{"clause_id":"1","old_clause":"X","new_clause":"Y","action":"replace"}] Thanks"`. -/
def c2Input : List Char :=
  "Here are changes: [\x7b\x22clause_id\x22:\x221\x22,\x22old_clause\x22:\x22X\x22,\x22new_clause\x22:\x22Y\x22,\x22action\x22:\x22replace\x22\x7d] Thanks".toList

/-- The bracketed span of `c2Input`. -/
def c2Span : List Char :=
  "[\x7b\x22clause_id\x22:\x221\x22,\x22old_clause\x22:\x22X\x22,\x22new_clause\x22:\x22Y\x22,\x22action\x22:\x22replace\x22\x7d]".toList

/-- The single amendment record that `c2Span` parses to. -/
def c2Value : JValue :=
  JValue.jarr [JValue.jobj
    [("clause_id".toList, JValue.jstr ("1".toList)),
     ("old_clause".toList, JValue.jstr ("X".toList)),
     ("new_clause".toList, JValue.jstr ("Y".toList)),
     ("action".toList, JValue.jstr ("replace".toList))]]

/-- Two bracketed groups with prose between: the greedy regex span and the
first balanced span disagree here. -/
def cexC2 : List Char := "x [1] y [2]".toList

/-- Text with two occurrences of the clause to be removed. -/
def cexC1Text : List Char := "abab".toList

/-- A `remove` amendment whose `old_clause` occurs twice in `cexC1Text`. -/
def cexC1A : Amendment := ⟨"1".toList, "ab".toList, [], "remove".toList⟩

/-- A `replace` amendment used to witness the replace-all behaviour. -/
def witC1A : Amendment := ⟨"1".toList, "x".toList, "N".toList, "replace".toList⟩

def witC1Text : List Char := "xyx".toList

/-- Text satisfying the additive-scoring claim's stated precondition
(termination and liability present; indemn, gdpr, personal data absent)
while also containing "privacy". -/
def cexRiskText : List Char := "termination liability privacy".toList

def witRiskText : List Char := "termination and liability".toList

/-- A 2300-character text for the chunk-count test vector. -/
def textW2300 : List Char := List.replicate 2300 'a'

/-- The chunks `chunk_text` produces for `textW2300`. -/
def outW2300 : List (List Char) :=
  [pySlice textW2300 0 1000, pySlice textW2300 800 1800, pySlice textW2300 1600 2600]

def textW5 : List Char := "abcde".toList

def outW5 : List (List Char) := ["abc".toList, "cde".toList, "e".toList]

/-- A one-character text: enough for the chunking loop to never terminate
once the step is non-positive. -/
def oneCharText : List Char := "a".toList

/-- Two stored chunks for the retrieval model. -/
def chunksW : List (List Char) := ["alpha".toList, "beta".toList]

/-- Their (modelled, integer) embedding vectors. -/
def dbW : List (List Int) := [[0], [10]]

/-- A query vector closest to the first stored vector. -/
def qW : List Int := [0]

/-! ## Prefix and occurrence lemmas -/

theorem occursIn_false_ne_nil {s pat : List Char} (h : occursIn s pat = false) :
    pat ≠ [] := by
  intro hp
  subst hp
  cases s <;> simp [occursIn, List.isPrefixOf] at h

theorem occursIn_cons_false {c : Char} {rest pat : List Char}
    (h : occursIn (c :: rest) pat = false) :
    pat.isPrefixOf (c :: rest) = false ∧ occursIn rest pat = false := by
  simpa [occursIn] using h

theorem self_isPrefixOf_append (l t : List Char) : l.isPrefixOf (l ++ t) = true := by
  simp [List.isPrefixOf_iff_prefix]

theorem isPrefixOf_refl (l : List Char) : l.isPrefixOf l = true := by
  simp [List.isPrefixOf_iff_prefix]

theorem isPrefixOf_append_cases (pat s t : List Char)
    (h : pat.isPrefixOf (s ++ t) = true) :
    pat.isPrefixOf s = true ∨
      (s.isPrefixOf pat = true ∧ (pat.drop s.length).isPrefixOf t = true) := by
  induction s generalizing pat with
  | nil =>
    right
    refine ⟨by simp [List.isPrefixOf], ?_⟩
    simpa using h
  | cons a s2 ih =>
    cases pat with
    | nil => left; simp [List.isPrefixOf]
    | cons p ps =>
      simp only [List.cons_append, List.isPrefixOf, Bool.and_eq_true, beq_iff_eq] at h
      obtain ⟨hpa, hps⟩ := h
      rcases ih ps hps with h1 | ⟨h2, h3⟩
      · left
        simp [List.isPrefixOf, hpa, h1]
      · right
        refine ⟨by simp [List.isPrefixOf, hpa, h2], ?_⟩
        simpa using h3

theorem isPrefixOf_eq_of_length_le {l1 l2 : List Char}
    (h : l1.isPrefixOf l2 = true) (hl : l2.length ≤ l1.length) : l1 = l2 :=
  List.IsPrefix.eq_of_length_le (List.isPrefixOf_iff_prefix.mp h) hl

theorem not_isPrefixOf_append {pat t : List Char} (c : Char) (rest : List Char)
    (hnb : ∀ k, k < pat.length → 0 < k → (pat.drop k).isPrefixOf t = false)
    (h1 : pat.isPrefixOf (c :: rest) = false) :
    pat.isPrefixOf ((c :: rest) ++ t) = false := by
  by_contra hcon
  rw [Bool.not_eq_false] at hcon
  rcases isPrefixOf_append_cases pat (c :: rest) t hcon with h | ⟨h2, h3⟩
  · rw [h] at h1; exact Bool.true_eq_false.mp h1
  · by_cases hk : (c :: rest).length < pat.length
    · have := hnb (c :: rest).length hk (by simp)
      rw [this] at h3
      exact absurd h3 (by simp)
    · have heq : c :: rest = pat :=
        isPrefixOf_eq_of_length_le h2 (Nat.le_of_not_lt hk)
      rw [← heq, isPrefixOf_refl] at h1
      exact Bool.true_eq_false.mp h1

theorem occursIn_append_false {pat t : List Char}
    (hnb : ∀ k, k < pat.length → 0 < k → (pat.drop k).isPrefixOf t = false)
    (ht : occursIn t pat = false) :
    ∀ {s : List Char}, occursIn s pat = false → occursIn (s ++ t) pat = false := by
  intro s
  induction s with
  | nil => intro _; simpa using ht
  | cons c rest ih =>
    intro h
    obtain ⟨h1, h2⟩ := occursIn_cons_false h
    have h3 := not_isPrefixOf_append c rest hnb h1
    show occursIn ((c :: rest) ++ t) pat = false
    simp only [List.cons_append, occursIn, Bool.or_eq_false_iff]
    exact ⟨by simpa using h3, ih h2⟩

/-! ## Replacement lemmas -/

theorem pyReplaceF_irrel (f1 : Nat) :
    ∀ {s : List Char} (f2 : Nat) (pat rep : List Char),
      s.length ≤ f1 → s.length ≤ f2 →
      pyReplaceF f1 s pat rep = pyReplaceF f2 s pat rep := by
  induction f1 with
  | zero =>
    intro s f2 pat rep h1 _
    have hs : s = [] := List.length_eq_zero.mp (Nat.le_zero.mp h1)
    subst hs
    cases f2 <;> rfl
  | succ f1 ih =>
    intro s f2 pat rep h1 h2
    cases s with
    | nil => cases f2 <;> rfl
    | cons c rest =>
      cases f2 with
      | zero => simp at h2
      | succ f2 =>
        simp only [List.length_cons] at h1 h2
        by_cases hp : pat = []
        · simp only [pyReplaceF, hp, if_true]
          rw [@ih rest f2 [] rep (by omega) (by omega)]
        · by_cases hpre : pat.isPrefixOf (c :: rest) = true
          · have hplen : 0 < pat.length := List.length_pos.mpr hp
            have hle1 : ((c :: rest).drop pat.length).length ≤ f1 := by
              simp only [List.length_drop, List.length_cons]
              omega
            have hle2 : ((c :: rest).drop pat.length).length ≤ f2 := by
              simp only [List.length_drop, List.length_cons]
              omega
            simp only [pyReplaceF, hp, if_false, hpre, if_true]
            rw [@ih ((c :: rest).drop pat.length) f2 pat rep hle1 hle2]
          · have hpre2 : pat.isPrefixOf (c :: rest) = false :=
              Bool.eq_false_iff.mpr hpre
            simp only [pyReplaceF, hp, if_false, hpre2, Bool.false_eq_true]
            rw [@ih rest f2 pat rep (by omega) (by omega)]

theorem pyReplace_nil {pat : List Char} (rep : List Char) (h : pat ≠ []) :
    pyReplace [] pat rep = [] := by
  simp [pyReplace, pyReplaceF, h]

theorem pyReplace_cons_pos {pat : List Char} (c : Char) (rest rep : List Char)
    (h : pat ≠ []) (hp : pat.isPrefixOf (c :: rest) = true) :
    pyReplace (c :: rest) pat rep =
      rep ++ pyReplace ((c :: rest).drop pat.length) pat rep := by
  have hplen : 0 < pat.length := List.length_pos.mpr h
  show pyReplaceF (rest.length + 1) (c :: rest) pat rep = _
  simp only [pyReplaceF, h, if_false, hp, if_true]
  rw [pyReplace,
    pyReplaceF_irrel rest.length ((c :: rest).drop pat.length).length pat rep
      (by simp; omega) (Nat.le_refl _)]

theorem pyReplace_cons_neg {pat : List Char} (c : Char) (rest rep : List Char)
    (h : pat ≠ []) (hp : pat.isPrefixOf (c :: rest) = false) :
    pyReplace (c :: rest) pat rep = c :: pyReplace rest pat rep := by
  show pyReplaceF (rest.length + 1) (c :: rest) pat rep = _
  simp only [pyReplaceF, h, if_false, hp, Bool.false_eq_true]
  rw [pyReplace]

theorem pyReplace_of_occursIn_false {s pat : List Char} (rep : List Char)
    (h : occursIn s pat = false) : pyReplace s pat rep = s := by
  have hpat := occursIn_false_ne_nil h
  induction s with
  | nil => exact pyReplace_nil rep hpat
  | cons c rest ih =>
    obtain ⟨h1, h2⟩ := occursIn_cons_false h
    rw [pyReplace_cons_neg c rest rep hpat h1, ih h2]

theorem pyReplace_append_pat {pat : List Char} (rep : List Char)
    (hnb : ∀ k, k < pat.length → 0 < k → (pat.drop k).isPrefixOf pat = false) :
    ∀ {s : List Char}, occursIn s pat = false →
      pyReplace (s ++ pat) pat rep = s ++ rep := by
  intro s
  induction s with
  | nil =>
    intro h
    have hpat := occursIn_false_ne_nil h
    obtain ⟨c, pr, hc⟩ := List.exists_cons_of_ne_nil hpat
    rw [List.nil_append, List.nil_append]
    rw [hc, pyReplace_cons_pos c pr rep (by rw [hc] at hpat; exact hpat)
      (by rw [← hc]; exact isPrefixOf_refl pat), ← hc]
    rw [List.drop_length, pyReplace_nil rep hpat, List.append_nil]
  | cons c rest ih =>
    intro h
    have hpat := occursIn_false_ne_nil h
    obtain ⟨h1, h2⟩ := occursIn_cons_false h
    have h3 := not_isPrefixOf_append c rest hnb h1
    rw [List.cons_append,
      pyReplace_cons_neg c (rest ++ pat) rep hpat (by simpa using h3)]
    rw [ih h2]
    simp

/-! ## Split / join lemmas -/

theorem pySplitF_ne_nil (f : Nat) (s pat : List Char) : pySplitF f s pat ≠ [] := by
  cases s with
  | nil => cases f <;> simp [pySplitF]
  | cons c rest =>
    cases f with
    | zero => simp [pySplitF]
    | succ fuel =>
      simp only [pySplitF]
      split
      · simp
      · split <;> simp

theorem pySplit_ne_nil (s pat : List Char) : pySplit s pat ≠ [] :=
  pySplitF_ne_nil _ _ _

theorem pySplitF_irrel (f1 : Nat) :
    ∀ {s : List Char} (f2 : Nat) (pat : List Char),
      s.length ≤ f1 → s.length ≤ f2 → pySplitF f1 s pat = pySplitF f2 s pat := by
  induction f1 with
  | zero =>
    intro s f2 pat h1 _
    have hs : s = [] := List.length_eq_zero.mp (Nat.le_zero.mp h1)
    subst hs
    cases f2 <;> rfl
  | succ f1 ih =>
    intro s f2 pat h1 h2
    cases s with
    | nil => cases f2 <;> rfl
    | cons c rest =>
      cases f2 with
      | zero => simp at h2
      | succ f2 =>
        simp only [List.length_cons] at h1 h2
        by_cases hcond : pat ≠ [] ∧ pat.isPrefixOf (c :: rest) = true
        · have hplen : 0 < pat.length := List.length_pos.mpr hcond.1
          have hle1 : ((c :: rest).drop pat.length).length ≤ f1 := by
            simp only [List.length_drop, List.length_cons]
            omega
          have hle2 : ((c :: rest).drop pat.length).length ≤ f2 := by
            simp only [List.length_drop, List.length_cons]
            omega
          simp only [pySplitF, if_pos hcond]
          rw [@ih ((c :: rest).drop pat.length) f2 pat hle1 hle2]
        · simp only [pySplitF, if_neg hcond]
          rw [@ih rest f2 pat (by omega) (by omega)]

theorem pySplit_nil (pat : List Char) : pySplit [] pat = [[]] := rfl

theorem pySplit_cons_pos {pat : List Char} (c : Char) (rest : List Char)
    (h : pat ≠ []) (hp : pat.isPrefixOf (c :: rest) = true) :
    pySplit (c :: rest) pat = [] :: pySplit ((c :: rest).drop pat.length) pat := by
  have hplen : 0 < pat.length := List.length_pos.mpr h
  show pySplitF (rest.length + 1) (c :: rest) pat = _
  simp only [pySplitF, if_pos (And.intro h hp)]
  have heq : pySplitF rest.length ((c :: rest).drop pat.length) pat
      = pySplitF ((c :: rest).drop pat.length).length ((c :: rest).drop pat.length) pat :=
    @pySplitF_irrel rest.length ((c :: rest).drop pat.length)
      ((c :: rest).drop pat.length).length pat
      (by simp only [List.length_drop, List.length_cons]; omega) (Nat.le_refl _)
  rw [heq]
  rfl

theorem pySplit_cons_neg {pat : List Char} (c : Char) (rest g : List Char)
    (gs : List (List Char)) (h : pat ≠ []) (hp : pat.isPrefixOf (c :: rest) = false)
    (hrest : pySplit rest pat = g :: gs) :
    pySplit (c :: rest) pat = (c :: g) :: gs := by
  have hcond : ¬(pat ≠ [] ∧ pat.isPrefixOf (c :: rest) = true) := by
    simp [hp]
  show pySplitF (rest.length + 1) (c :: rest) pat = _
  simp only [pySplitF, if_neg hcond]
  have hrest2 : pySplitF rest.length rest pat = g :: gs := hrest
  rw [hrest2]

theorem joinWith_cons_cons (sep : List Char) (c : Char) (g : List Char)
    (gs : List (List Char)) :
    joinWith sep ((c :: g) :: gs) = c :: joinWith sep (g :: gs) := by
  cases gs <;> simp [joinWith]

theorem joinWith_nil_cons (sep g : List Char) (gs : List (List Char)) :
    joinWith sep ([] :: g :: gs) = sep ++ joinWith sep (g :: gs) := by
  simp [joinWith]

theorem pyReplace_eq_joinWith_pySplit_aux (pat rep : List Char) (hp : pat ≠ []) :
    ∀ (n : Nat) (s : List Char), s.length ≤ n →
      pyReplace s pat rep = joinWith rep (pySplit s pat) := by
  intro n
  induction n with
  | zero =>
    intro s hs
    have : s = [] := List.length_eq_zero.mp (Nat.le_zero.mp hs)
    subst this
    rw [pyReplace_nil rep hp, pySplit_nil]
    simp [joinWith]
  | succ n ih =>
    intro s hs
    cases s with
    | nil =>
      rw [pyReplace_nil rep hp, pySplit_nil]
      simp [joinWith]
    | cons c rest =>
      by_cases hpre : pat.isPrefixOf (c :: rest) = true
      · rw [pyReplace_cons_pos c rest rep hp hpre, pySplit_cons_pos c rest hp hpre]
        have hlen : ((c :: rest).drop pat.length).length ≤ n := by
          have hp1 : 0 < pat.length := List.length_pos.mpr hp
          simp only [List.length_drop, List.length_cons]
          simp only [List.length_cons] at hs
          omega
        rw [ih _ hlen]
        obtain ⟨g, gs, hg⟩ :=
          List.exists_cons_of_ne_nil (pySplit_ne_nil ((c :: rest).drop pat.length) pat)
        rw [hg, joinWith_nil_cons]
      · have hpre2 : pat.isPrefixOf (c :: rest) = false :=
          Bool.not_eq_true _ ▸ Bool.of_not_eq_true hpre
        obtain ⟨g, gs, hg⟩ := List.exists_cons_of_ne_nil (pySplit_ne_nil rest pat)
        rw [pyReplace_cons_neg c rest rep hp hpre2,
          pySplit_cons_neg c rest g gs hp hpre2 hg, joinWith_cons_cons]
        have hlen : rest.length ≤ n := by
          simp only [List.length_cons] at hs
          omega
        rw [ih rest hlen, hg]

theorem pyReplace_eq_joinWith_pySplit (s pat rep : List Char) (hp : pat ≠ []) :
    pyReplace s pat rep = joinWith rep (pySplit s pat) :=
  pyReplace_eq_joinWith_pySplit_aux pat rep hp s.length s (Nat.le_refl _)

/-! ## Marker facts and the round-trip core -/

theorem pyReplace_head {pat : List Char} (x rep : List Char) (hp : pat ≠ []) :
    pyReplace (pat ++ x) pat rep = rep ++ pyReplace x pat rep := by
  obtain ⟨c, pr, hc⟩ := List.exists_cons_of_ne_nil hp
  rw [hc, List.cons_append,
    pyReplace_cons_pos c (pr ++ x) rep (by rw [hc] at hp; exact hp)
      (by rw [← List.cons_append, ← hc]; exact self_isPrefixOf_append pat x),
    ← List.cons_append, ← hc, List.drop_left]

theorem hlOpen_ne_nil : hlOpen ≠ [] := by decide

theorem hlClose_ne_nil : hlClose ≠ [] := by decide

/-- No non-trivial suffix of the opening marker is a prefix of the closing
marker, so appending the closing marker to marker-free text cannot create an
occurrence of the opening marker. -/
theorem hlOpen_drop_hlClose :
    ∀ k, k < hlOpen.length → 0 < k → (hlOpen.drop k).isPrefixOf hlClose = false := by
  decide

/-- The closing marker has no non-trivial border. -/
theorem hlClose_drop_hlClose :
    ∀ k, k < hlClose.length → 0 < k → (hlClose.drop k).isPrefixOf hlClose = false := by
  decide

theorem occursIn_hlClose_hlOpen : occursIn hlClose hlOpen = false := by decide

/-! ## Chunking lemmas -/

theorem pySlice_nonneg (s : List Char) (a b : Int) (ha : 0 ≤ a) (hb : 0 ≤ b) :
    pySlice s a b = (s.drop a.toNat).take (b.toNat - a.toNat) := by
  have hna : ¬ a < 0 := by omega
  have hnb2 : ¬ b < 0 := by omega
  simp only [pySlice, hna, if_false, hnb2]
  rw [List.drop_take]
  rcases le_total a (s.length : Int) with hA | hA
  · rw [min_eq_left hA]
    rcases le_total b (s.length : Int) with hB | hB
    · rw [min_eq_left hB]
    · rw [min_eq_right hB]
      have h1 : (s.drop a.toNat).length = s.length - a.toNat := List.length_drop _ _
      rw [List.take_of_length_le (by rw [h1]; omega),
        List.take_of_length_le (by rw [h1]; omega)]
  · rw [min_eq_right hA]
    have h1 : s.drop ((s.length : Int)).toNat = [] :=
      List.drop_eq_nil_of_le (by omega)
    have h2 : s.drop a.toNat = [] := List.drop_eq_nil_of_le (by omega)
    rw [h1, h2]
    simp

theorem chunkLoopF_get (cs co : Int) (text : List Char) (hco : 0 ≤ co) (hlt : co < cs) :
    ∀ (fuel : Nat) (i : Int), 0 ≤ i → ∀ (out : List (List Char)),
      chunkLoopF cs co text i fuel = some out →
      ∀ j : Nat, out.get? j =
        if i + j * (cs - co) < (text.length : Int) then
          some (pySlice text (i + j * (cs - co)) (i + j * (cs - co) + cs))
        else none := by
  intro fuel
  induction fuel with
  | zero =>
    intro i hi out h j
    simp [chunkLoopF] at h
  | succ fuel ih =>
    intro i hi out h j
    rw [chunkLoopF] at h
    by_cases hilen : i < (text.length : Int)
    · rw [if_pos hilen] at h
      cases hrec : chunkLoopF cs co text (i + (cs - co)) fuel with
      | none => rw [hrec] at h; simp at h
      | some rest =>
        rw [hrec] at h
        simp only [Option.some.injEq] at h
        subst h
        have ihr := ih (i + (cs - co)) (by omega) rest hrec
        cases j with
        | zero =>
          have harith : i + (0 : Nat) * (cs - co) = i := by push_cast; ring
          rw [List.get?_cons_zero, harith, if_pos hilen]
        | succ j2 =>
          have harith : i + (cs - co) + (j2 : Nat) * (cs - co)
              = i + ((j2 + 1 : Nat) : Int) * (cs - co) := by push_cast; ring
          rw [List.get?_cons_succ, ihr j2, harith]
    · rw [if_neg hilen] at h
      simp only [Option.some.injEq] at h
      subst h
      have hj : 0 ≤ (j : Int) * (cs - co) :=
        mul_nonneg (by positivity) (by omega)
      rw [if_neg (by omega)]
      simp

theorem chunkLoopF_join (cs co : Int) (text : List Char) (hco : 0 ≤ co) (hlt : co < cs) :
    ∀ (fuel : Nat) (i : Int), 0 ≤ i → ∀ (out : List (List Char)),
      chunkLoopF cs co text i fuel = some out →
      (out.map (List.take (cs - co).toNat)).flatten = text.drop i.toNat := by
  intro fuel
  induction fuel with
  | zero =>
    intro i hi out h
    simp [chunkLoopF] at h
  | succ fuel ih =>
    intro i hi out h
    rw [chunkLoopF] at h
    by_cases hilen : i < (text.length : Int)
    · rw [if_pos hilen] at h
      cases hrec : chunkLoopF cs co text (i + (cs - co)) fuel with
      | none => rw [hrec] at h; simp at h
      | some rest =>
        rw [hrec] at h
        simp only [Option.some.injEq] at h
        subst h
        have ihr := ih (i + (cs - co)) (by omega) rest hrec
        have hslice : pySlice text i (i + cs)
            = (text.drop i.toNat).take cs.toNat := by
          rw [pySlice_nonneg text i (i + cs) hi (by omega)]
          congr 1
          omega
        have htake : (pySlice text i (i + cs)).take (cs - co).toNat
            = (text.drop i.toNat).take (cs - co).toNat := by
          rw [hslice, List.take_take, min_eq_left (by omega)]
        have hdrop : (i + (cs - co)).toNat = i.toNat + (cs - co).toNat := by omega
        simp only [List.map_cons, List.flatten_cons, ihr, hdrop, htake]
        rw [← List.drop_drop, List.take_append_drop]
    · rw [if_neg hilen] at h
      simp only [Option.some.injEq] at h
      subst h
      simp only [List.map_nil, List.flatten_nil]
      rw [List.drop_eq_nil_of_le (by omega)]

theorem chunkLoopF_succ_pos (cs co : Int) (text : List Char) (i : Int) (fuel : Nat)
    (rest : List (List Char)) (hi : i < (text.length : Int))
    (h : chunkLoopF cs co text (i + (cs - co)) fuel = some rest) :
    chunkLoopF cs co text i (fuel + 1) = some (pySlice text i (i + cs) :: rest) := by
  rw [chunkLoopF, if_pos hi, h]

theorem chunkLoopF_stop (cs co : Int) (text : List Char) (i : Int) (fuel : Nat)
    (hi : ¬ i < (text.length : Int)) :
    chunkLoopF cs co text i (fuel + 1) = some [] := by
  rw [chunkLoopF, if_neg hi]

theorem textW2300_length : textW2300.length = 2300 := by
  rw [textW2300]
  exact List.length_replicate 2300 _

/-! ## Claim theorems -/

/-- C1 (counterexample): the claim says each amendment only replaces the
first occurrence of `old_clause`, leaving later occurrences untouched; but
`apply_amendments` uses Python `str.replace`, which replaces every
occurrence.  On `"abab"` with a `remove` amendment for `"ab"`, the source
produces `""` while the claimed first-occurrence semantics would keep the
second occurrence and produce `"ab"`. -/
theorem apply_amendments_first_only_cex :
    apply_amendments cexC1Text [cexC1A] = [] ∧
    apply_amendments_spec cexC1Text [cexC1A] = "ab".toList ∧
    apply_amendments cexC1Text [cexC1A] ≠ apply_amendments_spec cexC1Text [cexC1A] := by
  refine ⟨by decide, by decide, by decide⟩

/-- C1 (amended): `apply_amendments` processes amendments sequentially in
list order; each amendment with non-empty `old_clause` performs a literal
replacement of EVERY non-overlapping occurrence (leftmost first) of
`old_clause` — with the empty string for `remove`, and with `new_clause`
wrapped in insertion markers otherwise — which is exactly joining the
`old_clause`-split pieces of the text with the replacement. -/
theorem apply_amendments_replaces_all_occurrences (text : List Char) (a : Amendment)
    (as : List Amendment) (h : a.old_clause ≠ []) :
    apply_amendments text (a :: as) =
      apply_amendments
        (joinWith (if a.action = actRemove then [] else hlOpen ++ a.new_clause ++ hlClose)
          (pySplit text a.old_clause)) as := by
  show apply_amendments (applyOne text a) as = _
  congr 1
  rcases eq_or_ne a.action actRemove with ha | ha
  · rw [show applyOne text a = pyReplace text a.old_clause [] from by
      simp [applyOne, h, ha]]
    rw [if_pos ha]
    exact pyReplace_eq_joinWith_pySplit text a.old_clause [] h
  · rw [show applyOne text a
        = pyReplace text a.old_clause (hlOpen ++ a.new_clause ++ hlClose) from by
      simp [applyOne, h, ha]]
    rw [if_neg ha]
    exact pyReplace_eq_joinWith_pySplit text a.old_clause _ h

theorem apply_amendments_replaces_all_occurrences_witness :
    apply_amendments witC1Text [witC1A] =
      apply_amendments
        (joinWith
          (if witC1A.action = actRemove then [] else hlOpen ++ witC1A.new_clause ++ hlClose)
          (pySplit witC1Text witC1A.old_clause)) [] :=
  apply_amendments_replaces_all_occurrences witC1Text witC1A [] (by decide)

/-- C2 (counterexample): the claim says the fallback extracts the FIRST
BALANCED `[...]` substring; the source's regex `\[.*\]` is greedy, matching
from the first `[` to the LAST `]`.  On `"x [1] y [2]"` the greedy span
`"[1] y [2]"` fails to parse so `extract_json` returns the empty array,
whereas parsing the first balanced span `"[1]"` yields a one-element array. -/
theorem extract_json_first_balanced_cex :
    extract_json cexC2 = JValue.jarr [] ∧
    extract_json_spec cexC2 = JValue.jarr [JValue.jnum ("1".toList)] ∧
    extract_json cexC2 ≠ extract_json_spec cexC2 := by
  refine ⟨rfl, rfl, ?_⟩
  intro h
  rw [show extract_json cexC2 = JValue.jarr [] from rfl,
    show extract_json_spec cexC2 = JValue.jarr [JValue.jnum ("1".toList)] from rfl] at h
  simp at h

/-- C2 (amended): `extract_json` first attempts a strict JSON parse of the
whole string; on failure it pattern-matches the greedy span from the first
usable `[` to the last `]` and parses that; if both attempts fail it returns
an empty list rather than raising.  On the specification's test input the
strict parse fails, the span is the bracketed array, and the result is
exactly one amendment record despite the surrounding prose. -/
theorem extract_json_greedy_fallback :
    (∀ t v, json_loads t = some v → extract_json t = v) ∧
    (∀ t, json_loads t = none → regexBracketSpan t = none →
      extract_json t = JValue.jarr []) ∧
    (∀ t m, json_loads t = none → regexBracketSpan t = some m → json_loads m = none →
      extract_json t = JValue.jarr []) ∧
    (json_loads c2Input = none ∧ regexBracketSpan c2Input = some c2Span ∧
      json_loads c2Span = some c2Value ∧ extract_json c2Input = c2Value) := by
  refine ⟨?_, ?_, ?_, rfl, rfl, rfl, rfl⟩
  · intro t v h
    simp [extract_json, h]
  · intro t h1 h2
    simp [extract_json, h1, h2]
  · intro t m h1 h2 h3
    simp [extract_json, h1, h2, h3]

theorem extract_json_greedy_fallback_witness :
    extract_json ("no json here".toList) = JValue.jarr [] :=
  extract_json_greedy_fallback.2.1 ("no json here".toList) rfl rfl

/-- C3 (code bug): the specification requires chunking to fail fast with a
configuration error when `overlap ≥ chunk_size`; the source has no such
check, and with a non-positive step the `while i < len(text)` loop never
terminates on any non-empty text: with `CHUNK_SIZE = CHUNK_OVERLAP = 1000`
the loop body at `i = 0` recurs at `i = 0`, so no amount of fuel completes. -/
theorem chunk_text_nonpositive_step_diverges :
    ∀ fuel : Nat, chunkLoopF 1000 1000 oneCharText 0 fuel = none := by
  intro fuel
  induction fuel with
  | zero => rfl
  | succ f ih =>
    rw [chunkLoopF, if_pos (by decide)]
    have h0 : (0 : Int) + (1000 - 1000) = 0 := by norm_num
    rw [h0, ih]

/-- C4: on a text of length 2300 with `chunk_size = 1000`, `overlap = 200`,
`chunk_text` yields exactly 3 chunks starting at offsets 0, 800, 1600, of
lengths 1000, 1000, 700, and no chunk starts at or beyond offset 2300. -/
theorem chunk_text_2300_shape (text : List Char) (fuel : Nat) (out : List (List Char))
    (hlen : text.length = 2300) (h : chunk_text text fuel = some out) :
    out.length = 3 ∧
    out[0]? = some (text.take 1000) ∧
    out[1]? = some ((text.drop 800).take 1000) ∧
    out[2]? = some ((text.drop 1600).take 1000) ∧
    out.map List.length = [1000, 1000, 700] := by
  have h2 : chunkLoopF 1000 200 text 0 fuel = some out := h
  have K := chunkLoopF_get 1000 200 text (by norm_num) (by norm_num) fuel 0
    (by norm_num) out h2
  have hK0 := K 0
  have hK1 := K 1
  have hK2 := K 2
  have hK3 := K 3
  rw [hlen] at hK0 hK1 hK2 hK3
  norm_num at hK0 hK1 hK2 hK3
  rw [pySlice_nonneg text 0 1000 (by norm_num) (by norm_num)] at hK0
  rw [pySlice_nonneg text 800 1800 (by norm_num) (by norm_num)] at hK1
  rw [pySlice_nonneg text 1600 2600 (by norm_num) (by norm_num)] at hK2
  norm_num [List.drop_zero] at hK0 hK1 hK2
  have hlen3 : out.length = 3 := by
    have hlt : 2 < out.length := (List.getElem?_eq_some.mp hK2).1
    omega
  refine ⟨hlen3, hK0, hK1, hK2, ?_⟩
  obtain ⟨x0, x1, x2, hout⟩ := List.length_eq_three.mp hlen3
  subst hout
  simp only [List.getElem?_cons_zero, List.getElem?_cons_succ,
    Option.some.injEq] at hK0 hK1 hK2
  subst hK0
  subst hK1
  subst hK2
  simp only [List.map_cons, List.map_nil, List.length_take, List.length_drop, hlen]
  simp

theorem chunk_text_2300_shape_witness :
    outW2300.length = 3 ∧
    outW2300[0]? = some (textW2300.take 1000) ∧
    outW2300[1]? = some ((textW2300.drop 800).take 1000) ∧
    outW2300[2]? = some ((textW2300.drop 1600).take 1000) ∧
    outW2300.map List.length = [1000, 1000, 700] := by
  have h3 : chunkLoopF 1000 200 textW2300 (1600 + (1000 - 200)) 1 = some [] := by
    have e : (1600 : Int) + (1000 - 200) = 2400 := by norm_num
    rw [e]
    exact chunkLoopF_stop 1000 200 textW2300 2400 0
      (by rw [textW2300_length]; norm_num)
  have h2 : chunkLoopF 1000 200 textW2300 (800 + (1000 - 200)) 2
      = some [pySlice textW2300 1600 2600] := by
    have e : (800 : Int) + (1000 - 200) = 1600 := by norm_num
    rw [e]
    have hres := chunkLoopF_succ_pos 1000 200 textW2300 1600 1 []
      (by rw [textW2300_length]; norm_num) h3
    have e2 : (1600 : Int) + 1000 = 2600 := by norm_num
    rw [e2] at hres
    exact hres
  have h1 : chunkLoopF 1000 200 textW2300 (0 + (1000 - 200)) 3
      = some [pySlice textW2300 800 1800, pySlice textW2300 1600 2600] := by
    have e : (0 : Int) + (1000 - 200) = 800 := by norm_num
    rw [e]
    have hres := chunkLoopF_succ_pos 1000 200 textW2300 800 2
      [pySlice textW2300 1600 2600] (by rw [textW2300_length]; norm_num) h2
    have e2 : (800 : Int) + 1000 = 1800 := by norm_num
    rw [e2] at hres
    exact hres
  have h0 : chunk_text textW2300 4 = some outW2300 := by
    show chunkLoopF 1000 200 textW2300 0 4 = some outW2300
    have hres := chunkLoopF_succ_pos 1000 200 textW2300 0 3
      [pySlice textW2300 800 1800, pySlice textW2300 1600 2600]
      (by rw [textW2300_length]; norm_num) h1
    have e2 : (0 : Int) + 1000 = 1000 := by norm_num
    rw [e2] at hres
    exact hres
  exact chunk_text_2300_shape textW2300 4 outW2300 textW2300_length h0

/-- C5: for any text and parameters with `0 ≤ overlap < chunk_size` (so the
step is positive), the chunks cover the text with no gaps: joining the
chunks' unique (first `step`-character) spans reconstructs the text exactly,
and every character position lies inside the span of some chunk. -/
theorem chunk_text_coverage (cs co : Int) (text : List Char) (fuel : Nat)
    (out : List (List Char)) (hco : 0 ≤ co) (hlt : co < cs)
    (h : chunkLoopF cs co text 0 fuel = some out) :
    (out.map (List.take (cs - co).toNat)).flatten = text ∧
    (∀ p : Nat, p < text.length →
      ∃ j : Nat, j < out.length ∧
        out.get? j = some (pySlice text ((j : Int) * (cs - co)) ((j : Int) * (cs - co) + cs)) ∧
        (j : Int) * (cs - co) ≤ (p : Int) ∧ (p : Int) < (j : Int) * (cs - co) + cs) := by
  constructor
  · have hj := chunkLoopF_join cs co text hco hlt fuel 0 (by norm_num) out h
    simpa using hj
  · intro p hp
    have K := chunkLoopF_get cs co text hco hlt fuel 0 (by norm_num) out h
    obtain ⟨stepN, hstepN⟩ : ∃ n : Nat, (cs - co).toNat = n := ⟨_, rfl⟩
    have hstep : 0 < stepN := by omega
    have hcast : ((stepN : Nat) : Int) = cs - co := by omega
    have hdiv : p / stepN * stepN ≤ p := Nat.div_mul_le_self p stepN
    have hmod : p < p / stepN * stepN + stepN := by
      have ha := Nat.div_add_mod p stepN
      have hb := Nat.mod_lt p hstep
      have hc : stepN * (p / stepN) = p / stepN * stepN := Nat.mul_comm _ _
      linarith
    have hple : ((p / stepN : Nat) : Int) * (cs - co) ≤ (p : Int) := by
      rw [← hcast, ← Nat.cast_mul]
      exact_mod_cast hdiv
    have hplt : (p : Int) < ((p / stepN : Nat) : Int) * (cs - co) + cs := by
      have h2i : (p : Int) < ((p / stepN * stepN + stepN : Nat) : Int) := by
        exact_mod_cast hmod
      rw [Nat.cast_add, Nat.cast_mul, hcast] at h2i
      have h3 : ((stepN : Nat) : Int) ≤ cs := by omega
      linarith
    have hplen : (p : Int) < (text.length : Int) := by exact_mod_cast hp
    have hcond : (0 : Int) + ((p / stepN : Nat) : Int) * (cs - co)
        < (text.length : Int) := by
      linarith
    have hK := K (p / stepN)
    rw [if_pos hcond] at hK
    refine ⟨p / stepN, ?_, ?_, hple, hplt⟩
    · exact (List.get?_eq_some.mp hK).1
    · rw [hK]
      norm_num

theorem chunk_text_coverage_witness :
    (outW5.map (List.take ((3 : Int) - 1).toNat)).flatten = textW5 ∧
    (∀ p : Nat, p < textW5.length →
      ∃ j : Nat, j < outW5.length ∧
        outW5.get? j
          = some (pySlice textW5 ((j : Int) * ((3 : Int) - 1)) ((j : Int) * ((3 : Int) - 1) + 3)) ∧
        (j : Int) * ((3 : Int) - 1) ≤ (p : Int) ∧
        (p : Int) < (j : Int) * ((3 : Int) - 1) + 3) :=
  chunk_text_coverage 3 1 textW5 10 outW5 (by norm_num) (by norm_num) (by decide)

/-- C6 (counterexample): the claim's precondition (termination and liability
present; "indemn", "gdpr" and "personal data" absent) does not pin the score
to 45: the fourth rule of `calculate_risk` also fires on "data protection"
or "privacy".  The text "termination liability privacy" satisfies the
claim's precondition yet scores 20+25+15 = 60 with three reasons. -/
theorem calculate_risk_privacy_cex :
    occursIn (cexRiskText.map Char.toLower) patTermination = true ∧
    occursIn (cexRiskText.map Char.toLower) patLiability = true ∧
    occursIn (cexRiskText.map Char.toLower) patIndemn = false ∧
    occursIn (cexRiskText.map Char.toLower) patGdpr = false ∧
    occursIn (cexRiskText.map Char.toLower) patPersonalData = false ∧
    calculate_risk cexRiskText = (60, [rTermination, rLiability, rGdpr]) := by
  refine ⟨by decide, by decide, by decide, by decide, by decide, by decide⟩

/-- C6 (amended): for text whose lowercase form contains "termination" and
"liability" but none of "indemn", "gdpr", "personal data", "data protection"
or "privacy", `calculate_risk` returns score 20+25 = 45 with exactly the two
reasons, termination first and liability second. -/
theorem calculate_risk_additive_45 (text : List Char)
    (h1 : occursIn (text.map Char.toLower) patTermination = true)
    (h2 : occursIn (text.map Char.toLower) patLiability = true)
    (h3 : occursIn (text.map Char.toLower) patIndemn = false)
    (h4 : occursIn (text.map Char.toLower) patGdpr = false)
    (h5 : occursIn (text.map Char.toLower) patPersonalData = false)
    (h6 : occursIn (text.map Char.toLower) patDataProtection = false)
    (h7 : occursIn (text.map Char.toLower) patPrivacy = false) :
    calculate_risk text = (45, [rTermination, rLiability]) := by
  simp [calculate_risk, h1, h2, h3, h4, h5, h6, h7]

theorem calculate_risk_additive_45_witness :
    calculate_risk witRiskText = (45, [rTermination, rLiability]) :=
  calculate_risk_additive_45 witRiskText (by decide) (by decide) (by decide)
    (by decide) (by decide) (by decide) (by decide)

/-- C7 (code bug): the specification requires `k` to be clamped to the
number of indexed items; the source passes `TOP_K = 4` to faiss unclamped.
With only 2 indexed chunks the search result is padded with the sentinel id
`-1`, and the retrieval loop indexes `chunks[-1]`, which in Python silently
reads the LAST chunk — so the context holds the second chunk three times
instead of exactly the two indexed chunks. -/
theorem retrieval_sentinel_unclamped :
    faissSearch dbW qW TOP_K = [0, 1, -1, -1] ∧
    retrievedChunks chunksW (faissSearch dbW qW TOP_K) =
      [some ("alpha".toList), some ("beta".toList),
        some ("beta".toList), some ("beta".toList)] := by
  refine ⟨by decide, by decide⟩

/-- C8: an amendment whose `old_clause` is empty or absent from the text
leaves the text completely unchanged (silent no-op, no exception). -/
theorem apply_amendments_noop_absent (text : List Char) (a : Amendment)
    (h : a.old_clause = [] ∨ occursIn text a.old_clause = false) :
    apply_amendments text [a] = text := by
  show applyOne text a = text
  rcases h with h | h
  · simp [applyOne, h]
  · have hne := occursIn_false_ne_nil h
    rw [applyOne, if_neg hne]
    rcases eq_or_ne a.action actRemove with ha | ha
    · rw [if_pos ha, pyReplace_of_occursIn_false _ h]
    · rw [if_neg ha, pyReplace_of_occursIn_false _ h]

theorem apply_amendments_noop_absent_witness :
    apply_amendments ("hello world".toList)
      [⟨"c1".toList, "zz".toList, "Q".toList, "replace".toList⟩] = "hello world".toList :=
  apply_amendments_noop_absent ("hello world".toList)
    ⟨"c1".toList, "zz".toList, "Q".toList, "replace".toList⟩ (Or.inr (by decide))

/-- C9 (counterexample): the round-trip is claimed for EVERY content string,
but content containing marker text is destroyed: wrapping the opening marker
itself and stripping (as `save_pdf` does, replacing both marker strings with
the empty string) yields the empty string, not the original content. -/
theorem marker_roundtrip_cex :
    stripHighlight (wrapHighlight hlOpen) ≠ hlOpen := by decide

/-- C9 (amended): for content that contains neither the opening nor the
closing marker as a substring, wrapping in insertion markers and then
stripping the markers restores the content exactly — no marker residue, no
content loss. -/
theorem marker_roundtrip_clean {s : List Char}
    (h1 : occursIn s hlOpen = false) (h2 : occursIn s hlClose = false) :
    stripHighlight (wrapHighlight s) = s := by
  have hsC : occursIn (s ++ hlClose) hlOpen = false :=
    occursIn_append_false hlOpen_drop_hlClose occursIn_hlClose_hlOpen h1
  have step1 : pyReplace (wrapHighlight s) hlOpen [] = s ++ hlClose := by
    rw [wrapHighlight, List.append_assoc, pyReplace_head (s ++ hlClose) [] hlOpen_ne_nil,
      List.nil_append, pyReplace_of_occursIn_false [] hsC]
  have step2 : pyReplace (s ++ hlClose) hlClose [] = s := by
    rw [pyReplace_append_pat [] hlClose_drop_hlClose h2, List.append_nil]
  rw [stripHighlight, step1, step2]

theorem marker_roundtrip_clean_witness :
    stripHighlight (wrapHighlight ("new clause text".toList)) = "new clause text".toList :=
  marker_roundtrip_clean (by decide) (by decide)

/-- C10: for a readable, decryptable PDF, `extract_text_from_pdf` returns at
most `limit_chars` characters (default 16000): whatever the page loop
accumulates, the final `text[:limit_chars]` truncates it to the limit. -/
theorem extract_text_from_pdf_le_limit (pages : List (Option (List Char))) (limit : Nat) :
    (extract_text_from_pdf pages limit).length ≤ limit ∧
    (extract_text_from_pdf pages LIMIT_CHARS).length ≤ 16000 := by
  constructor
  · exact List.length_take_le limit _
  · exact List.length_take_le 16000 _

end Regula
